import Mathlib

/-!
Verification of the cross-file namespace registry and type-reference resolver
of the protobuf-to-declaration converter (src/src/protobufNew/index.ts).

The data model and the operations are shallow embeddings of the TypeScript
source.  JavaScript `Map` objects (insertion-ordered) are modelled as
association lists; in-place mutation of AST fields is modelled by returning
updated nodes; machine strings are Lean `String`s with hand-rolled,
kernel-computable character-list operations standing in for `indexOf`,
`replace(/^\./, '')` and `join`.
-/

/-! ### String utilities (kernel-computable stand-ins for JS string ops) -/

/-- Character membership: models JS `s.indexOf(c) !== -1` for a single char. -/
def hasChar (s : String) (c : Char) : Bool :=
  s.data.contains c

/-- Does the needle occur as a prefix of the haystack (char lists)? -/
def prefixAt : List Char → List Char → Bool
  | _, [] => true
  | [], _ :: _ => false
  | a :: hs, b :: ns => a == b && prefixAt hs ns

/-- Does the needle occur as a contiguous sublist of the haystack? -/
def listHasSub : List Char → List Char → Bool
  | [], needle => prefixAt [] needle
  | a :: t, needle => prefixAt (a :: t) needle || listHasSub t needle

/-- Substring containment: models JS `hay.indexOf(needle) !== -1`. -/
def strIncludes (hay needle : String) : Bool :=
  listHasSub hay.data needle.data

/-- Models JS `s.replace(/^\./, '')`: strip one leading dot if present. -/
def stripLeadingDot (s : String) : String :=
  match s.data with
  | '.' :: rest => ⟨rest⟩
  | _ => s

/-- Models JS `Array.prototype.join(sep)`. -/
def joinSep (sep : String) : List String → String
  | [] => ""
  | [x] => x
  | x :: y :: xs => x ++ sep ++ joinSep sep (y :: xs)

/-- Split a dotted path into its segments (used for namespace lookup). -/
def splitDotsAux (acc : List Char) : List Char → List String
  | [] => [⟨acc.reverse⟩]
  | c :: rest =>
    if c == '.' then ⟨acc.reverse⟩ :: splitDotsAux [] rest
    else splitDotsAux (c :: acc) rest

/-- Split a dotted namespace path such as "a.b.c" into ["a", "b", "c"]. -/
def splitDots (s : String) : List String :=
  splitDotsAux [] s.data

/-! ### Data model -/

/-- The `type` discriminant of a registry entry (`PbNodeEntity.type` in the
source): the four reflection-node kinds recognised by `crawlAST`.
`nspace` stands for the source's string tag `'namespace'`. -/
inductive PbKind where
  | enum
  | message
  | service
  | nspace
deriving DecidableEq, Repr

/-- The resolver-relevant slice of a `protobufjs` `Field`: its declared type
string, the `resolved` flag and the presence of a `resolvedType` node
(`field.resolvedType` being non-null is modelled by the Boolean
`hasResolvedType`). -/
structure PbField where
  type : String
  resolved : Bool
  hasResolvedType : Bool
deriving DecidableEq, Repr

/-- The slice of a `protobufjs` `Method` used by
`convertMethodToFunctionEntity`: `requestType` is absent when the method
declares no request message. -/
structure Method where
  name : String
  requestType : Option String
  responseType : String
  comment : Option String
deriving DecidableEq, Repr

/-- A `protobufjs` reflection node as traversed by `crawlAST`.

In `protobufjs`, `Type` (message) and `Service` are subclasses of
`Namespace`; the source discriminates with an `instanceof` chain testing
`Enum`, then `Type`, then `Service`, then `Namespace`, so a message or a
service is never handled by the namespace branch.  The closed variant below
encodes the result of that discrimination.  `fullName` carries the node's
fully-qualified name with its leading dot, exactly as `protobufjs` reports
it. -/
inductive PbNode where
  | enumN (name fullName : String)
  | messageN (name fullName : String) (fields : List PbField) (nested : List PbNode)
  | serviceN (name fullName : String) (methods : List Method)
  | nspace (name fullName : String) (nested : List PbNode)
deriving Repr

/-- The node's simple name (`ReflectionObject#name`). -/
def PbNode.name : PbNode → String
  | .enumN n _ => n
  | .messageN n _ _ _ => n
  | .serviceN n _ _ => n
  | .nspace n _ _ => n

/-- The node's fully-qualified name with leading dot
(`ReflectionObject#fullName`). -/
def PbNode.fullName : PbNode → String
  | .enumN _ f => f
  | .messageN _ f _ _ => f
  | .serviceN _ f _ => f
  | .nspace _ f _ => f

/-- The kind tag recorded for the node by `crawlAST`'s `instanceof` chain. -/
def kindOf : PbNode → PbKind
  | .enumN _ _ => .enum
  | .messageN _ _ _ _ => .message
  | .serviceN _ _ _ => .service
  | .nspace _ _ _ => .nspace

/-- `Namespace#nestedArray` (non-empty only for messages and namespaces in
this model; enums and services carry no nested types here). -/
def nestedArray : PbNode → List PbNode
  | .messageN _ _ _ c => c
  | .nspace _ _ c => c
  | _ => []

/-- Replace the nested array of a message or namespace node. -/
def withNested : PbNode → List PbNode → PbNode
  | .messageN n f flds _, c => .messageN n f flds c
  | .nspace n f _, c => .nspace n f c
  | other, _ => other

/-- A registry entry (`PbNodeEntity` in the source): the reflection node,
its kind tag and the file that declared it. -/
structure PbNodeEntity where
  meta : PbNode
  type : PbKind
  filename : String

/-- The registry (`nodeMap` in the source): a JS `Map` from fully-qualified
name (leading dot stripped) to the list of entries declared under that name,
modelled as an insertion-ordered association list. -/
abbrev NodeMap := List (String × List PbNodeEntity)

/-- `Map#get(key)` followed by a default of `[]` (used where the source is
known to have created the key). -/
def getD (nm : NodeMap) (key : String) : List PbNodeEntity :=
  match nm with
  | [] => []
  | (k, es) :: rest => if k = key then es else getD rest key

/-- `Map#get(key)` proper: `none` models JS `undefined`. -/
def lookup? (nm : NodeMap) (key : String) : Option (List PbNodeEntity) :=
  match nm with
  | [] => none
  | (k, es) :: rest => if k = key then some es else lookup? rest key

/-- The `crawlAST` per-node registry update: if the key exists, push the
entry onto the existing array (never overwriting it); otherwise set a fresh
array holding the entry (a JS `Map#set` on a new key appends it at the end
of the iteration order). -/
def pushEntry (nm : NodeMap) (key : String) (e : PbNodeEntity) : NodeMap :=
  match nm with
  | [] => [(key, [e])]
  | (k, es) :: rest =>
    if k = key then (k, es ++ [e]) :: rest
    else (k, es) :: pushEntry rest key e

/-- The entry pushed by `crawlAST` for one visited node. -/
def mkEntity (n : PbNode) (filename : String) : PbNodeEntity :=
  { meta := n, type := kindOf n, filename := filename }

/-! ### The Node Registry Builder: `crawlAST` -/

/-- The children pushed onto the traversal stack for one popped node: the
source pushes `current.nestedArray` only in the namespace branch of the
`instanceof` chain (so a message's nested types are never pushed — `Type`
is matched by the earlier `isMessage` test). -/
def childrenToPush : PbNode → List PbNode
  | .nspace _ _ c => c
  | _ => []

/-- Size of a node (for termination of the stack traversal). -/
def PbNode.sz : PbNode → Nat
  | .enumN _ _ => 1
  | .messageN _ _ _ c => 1 + szList c
  | .serviceN _ _ _ => 1
  | .nspace _ _ c => 1 + szList c
where
  szList : List PbNode → Nat
    | [] => 0
    | x :: xs => PbNode.sz x + szList xs

/-- The explicit-stack loop of `crawlAST`: pop a node, register it under its
fully-qualified name with the leading dot stripped, and, when it is a
namespace, push its children (a JS `push(...arr)`/`pop()` pair visits
siblings last-first, which `(…).reverse ++ rest` reproduces). -/
def crawlGo (stack : List PbNode) (nodeMap : NodeMap) (filename : String) : NodeMap :=
  match stack with
  | [] => nodeMap
  | current :: rest =>
    crawlGo ((childrenToPush current).reverse ++ rest)
      (pushEntry nodeMap (stripLeadingDot current.fullName) (mkEntity current filename))
      filename
termination_by PbNode.sz.szList stack
decreasing_by
  have happ : ∀ (a b : List PbNode),
      PbNode.sz.szList (a ++ b) = PbNode.sz.szList a + PbNode.sz.szList b := by
    intro a b
    induction a with
    | nil => simp [PbNode.sz.szList]
    | cons u us ih => simp [PbNode.sz.szList, ih]; omega
  have hrev : ∀ (a : List PbNode),
      PbNode.sz.szList a.reverse = PbNode.sz.szList a := by
    intro a
    induction a with
    | nil => rfl
    | cons u us ih => simp [List.reverse_cons, happ, PbNode.sz.szList, ih]; omega
  have hlt : ∀ (n : PbNode), PbNode.sz.szList (childrenToPush n) < n.sz := by
    intro n
    cases n <;> simp [childrenToPush, PbNode.sz, PbNode.sz.szList]
  have h1 := hlt x
  simp only [happ, hrev, PbNode.sz.szList]
  omega

/-- `crawlAST(node, nodeMap, filename)`: collect every reflection node
reachable from `node` through namespace nesting into the registry. -/
def crawlAST (node : PbNode) (nodeMap : NodeMap) (filename : String) : NodeMap :=
  crawlGo [node] nodeMap filename

/-- The sequence of nodes visited (popped) by the `crawlAST` stack loop. -/
def visitL (stack : List PbNode) : List PbNode :=
  match stack with
  | [] => []
  | current :: rest => current :: visitL ((childrenToPush current).reverse ++ rest)
termination_by PbNode.sz.szList stack
decreasing_by
  have happ : ∀ (a b : List PbNode),
      PbNode.sz.szList (a ++ b) = PbNode.sz.szList a + PbNode.sz.szList b := by
    intro a b
    induction a with
    | nil => simp [PbNode.sz.szList]
    | cons u us ih => simp [PbNode.sz.szList, ih]; omega
  have hrev : ∀ (a : List PbNode),
      PbNode.sz.szList a.reverse = PbNode.sz.szList a := by
    intro a
    induction a with
    | nil => rfl
    | cons u us ih => simp [List.reverse_cons, happ, PbNode.sz.szList, ih]; omega
  have hlt : ∀ (n : PbNode), PbNode.sz.szList (childrenToPush n) < n.sz := by
    intro n
    cases n <;> simp [childrenToPush, PbNode.sz, PbNode.sz.szList]
  have h1 := hlt x
  simp only [happ, hrev, PbNode.sz.szList]
  omega

/-- All nodes syntactically declared in a tree, including types nested
inside messages (which `crawlAST` does NOT visit). -/
def allNodes : PbNode → List PbNode
  | .enumN n f => [.enumN n f]
  | .messageN n f flds c => .messageN n f flds c :: allNodesList c
  | .serviceN n f ms => [.serviceN n f ms]
  | .nspace n f c => .nspace n f c :: allNodesList c
where
  allNodesList : List PbNode → List PbNode
    | [] => []
    | x :: xs => allNodes x ++ allNodesList xs

/-! ### The Cross-File Type Resolver: `crawlAstAndAttachNamespace` -/

/-- The fixed primitive set of `isOriginType`. -/
def originTypes : List String :=
  ["double", "float", "int32", "int64", "uint32", "uint64", "sint32",
   "sint64", "fixed32", "fixed64", "sfixed32", "sfixed64", "bool", "bytes",
   "string", "list", "map"]

/-- `isOriginType(type)`: membership of the type name in the fixed primitive
set (the source tests `indexOf(type) !== -1` on that array). -/
def isOriginType (type : String) : Bool :=
  decide (type ∈ originTypes)

/-- The search key derived from one candidate string: used as-is when it
contains a separator, otherwise prefixed with a leading dot
(`fieldType.indexOf('.') !== -1 ? fieldType : '.' + fieldType`). -/
def ffOf (fieldType : String) : String :=
  if hasChar fieldType '.' then fieldType else "." ++ fieldType

/-- The survivor filter applied to the entries under a hit key: keep enums
and messages whose simple name equals the field's current type string. -/
def filterMatches (node : List PbNodeEntity) (fieldType : String) : List PbNodeEntity :=
  node.filter (fun d =>
    (d.type == PbKind.enum && d.meta.name == fieldType) ||
    (d.type == PbKind.message && d.meta.name == fieldType))

/-- The registry scan for one candidate: walk the map in insertion order,
skip keys that do not contain the search key `ff` as a substring and keys
whose survivor filter is empty; at the first surviving key answer the
fully-qualified name (leading dot stripped) of the first surviving entry. -/
def findRewrite (nodeMap : NodeMap) (fieldType : String) (ff : String) : Option String :=
  match nodeMap with
  | [] => none
  | (ns, node) :: rest =>
    if strIncludes ns ff then
      match filterMatches node fieldType with
      | [] => findRewrite rest fieldType ff
      | d :: _ => some (stripLeadingDot d.meta.fullName)
    else
      findRewrite rest fieldType ff

/-- The per-field body of `crawlAstAndAttachNamespace`: when the field is
not already resolved to a concrete type node and its type is not primitive,
try the two candidates `package + '.' + field.type` and `field.type`, in
that order.  The source iterates with `Array.prototype.some` whose callback
ends in a bare `return;` after the rewrite — `undefined` is falsy, so BOTH
candidates are always processed; this is modelled by a fold threading the
(possibly already rewritten) field through both candidates, with the filter
comparing against the field's CURRENT type string, as in the source. -/
def resolveFieldType (pkg : String) (nodeMap : NodeMap) (field : PbField) : PbField :=
  if !field.resolved && !field.hasResolvedType && !isOriginType field.type then
    [pkg ++ "." ++ field.type, field.type].foldl
      (fun fld fieldType =>
        match findRewrite nodeMap fld.type (ffOf fieldType) with
        | some newType => { fld with type := newType }
        | none => fld)
      field
  else
    field

/-- The per-child body of `crawlAstAndAttachNamespace`: a direct child that
is a message has each of its own fields run through the resolver; other
children (and everything nested deeper) are left untouched. -/
def resolveDirectMessage (pkg : String) (nodeMap : NodeMap) (d : PbNode) : PbNode :=
  match d with
  | .messageN name fn fields nested =>
    .messageN name fn (fields.map (resolveFieldType pkg nodeMap)) nested
  | other => other

/-- A parsed file as consumed by the resolution phase: its declared package
name and the namespace node found for it (`ast.root.lookup(ast.package!)`). -/
structure AstData where
  package : String
  nsNode : PbNode

/-- `crawlAstAndAttachNamespace(ast, nodeMap)`: iterate over the direct
children of the file's package namespace node and resolve the fields of the
messages among them (mutation in place is modelled by rebuilding the node). -/
def crawlAstAndAttachNamespace (ast : AstData) (nodeMap : NodeMap) : AstData :=
  { ast with
    nsNode := withNested ast.nsNode
      ((nestedArray ast.nsNode).map (resolveDirectMessage ast.package nodeMap)) }

/-! ### The `loadPb` pipeline (non-lint mode) -/

/-- The outcome of the external parser `pb.parse` on one file, as consumed
by `loadPb`: either a parse error (the thrown exception's message) or a
parser result carrying the optional `package` declaration and the parse
root.  The parser itself is an external collaborator; only its result shape
is modelled. -/
structure IParserResult where
  package : Option String
  root : PbNode

/-- One input file: its path and what the external parser does with it. -/
structure FileInput where
  filename : String
  parseResult : Except String IParserResult

/-- The two fatal conditions of `loadPb`: a parsed file without a package
declaration, and a package name that cannot be found in the file's own
parse tree (both raised as `throw new Error()` in the source). -/
inductive LoadError where
  | missingPackage (filename : String)
  | missingNamespaceNode (filename : String)
deriving DecidableEq, Repr

/-- Find a direct child by simple name (one step of `Namespace#lookup`). -/
def findNested (nodes : List PbNode) (seg : String) : Option PbNode :=
  nodes.find? (fun n => n.name == seg)

/-- `ast.root.lookup(ns)` for the absolute dotted package path: descend from
the parse root through nested nodes segment by segment. -/
def lookupPath (n : PbNode) : List String → Option PbNode
  | [] => some n
  | seg :: rest =>
    match findNested (nestedArray n) seg with
    | none => none
    | some child => lookupPath child rest

/-- The accumulating state of the `fileList.forEach` loop in `loadPb`: the
shared registry and the list of parsed files kept for the resolution phase
(each remembered with its package and namespace node). -/
structure LoadState where
  nodeMap : NodeMap
  astList : List AstData

/-- One iteration of the `fileList.forEach` loop in `loadPb` (non-lint
mode): a parse error is logged and the file skipped; a missing package or
an unlocatable namespace node aborts the whole run; otherwise the file's
namespace tree is crawled into the registry and its AST retained. -/
def processFile (st : LoadState) (file : FileInput) : Except LoadError LoadState :=
  match file.parseResult with
  | .error _ => .ok st
  | .ok ast =>
    match ast.package with
    | none => .error (.missingPackage file.filename)
    | some ns =>
      match lookupPath ast.root (splitDots ns) with
      | none => .error (.missingNamespaceNode file.filename)
      | some namespaceNode =>
        .ok { nodeMap := crawlAST namespaceNode st.nodeMap file.filename,
              astList := st.astList ++ [⟨ns, namespaceNode⟩] }

/-- The registry-building phase of `loadPb` over the whole file list,
starting from an empty registry; a thrown error aborts the run, leaving the
remaining files unprocessed. -/
def loadPbCore (files : List FileInput) : Except LoadError LoadState :=
  files.foldlM processFile ⟨[], []⟩

/-- The file names written to the error log by the parse-error branch over
a completed (non-aborted) run. -/
def parseErrorLog (files : List FileInput) : List String :=
  files.filterMap (fun f =>
    match f.parseResult with
    | .error _ => some f.filename
    | .ok _ => none)

/-- The resolution phase: run `crawlAstAndAttachNamespace` over every
retained AST against the finished registry. -/
def resolveAll (st : LoadState) : List AstData :=
  st.astList.map (fun ast => crawlAstAndAttachNamespace ast st.nodeMap)

/-- The `filenameNodeMap` grouping: re-index the registry by declaring file,
iterating entries in registry order and appending each to its file's list. -/
def filenameNodeMap (nm : NodeMap) : NodeMap :=
  nm.foldl
    (fun fm p => p.2.foldl (fun fm datum => pushEntry fm datum.filename datum) fm)
    []

/-- The files for which `loadPb` writes an output file: those whose group
exists in `filenameNodeMap` and contains a namespace entry (the source
returns early when `data` is `undefined` or no namespace entry is found). -/
def emittedFiles (files : List FileInput) (fm : NodeMap) : List String :=
  files.filterMap (fun f =>
    match lookup? fm f.filename with
    | none => none
    | some data =>
      match data.filter (fun d => d.type == PbKind.nspace) with
      | [] => none
      | _ :: _ => some f.filename)

/-! ### The Declaration Entity Builder and service emission -/

/-- An input parameter of a `FunctionEntity` (`{ type, index, name }`). -/
structure Param where
  type : String
  index : Nat
  name : String
deriving DecidableEq, Repr

/-- The target model of one service method. -/
structure FunctionEntity where
  comment : String
  inputParams : List Param
  returnType : String
deriving DecidableEq, Repr

/-- The target model of one service: its name and, per method name, the
method's `FunctionEntity` (a JS object keyed by method name, modelled as an
insertion-ordered association list). -/
structure ServiceEntity where
  name : String
  interfaces : List (String × FunctionEntity)
deriving DecidableEq, Repr

/-- `convertMethodToFunctionEntity(node)`: a declared request type becomes
the single positional input parameter `req` with index 1; otherwise the
input parameter list is empty. -/
def convertMethodToFunctionEntity (node : Method) : FunctionEntity :=
  { comment := node.comment.getD ""
    inputParams :=
      match node.requestType with
      | some rt => [{ type := rt, index := 1, name := "req" }]
      | none => []
    returnType := node.responseType }

/-- `convertServiceToServiceEntity(data)`: every method, in declaration
order, keyed by its name. -/
def convertServiceToServiceEntity (name : String) (methodsArray : List Method) : ServiceEntity :=
  { name := name
    interfaces := methodsArray.map (fun m => (m.name, convertMethodToFunctionEntity m)) }

/-- One JS sparse-array write `arr[i] = d`, extending the array with holes
when the index is beyond the current length. -/
def writeAt (arr : List (Option Param)) (i : Nat) (d : Param) : List (Option Param) :=
  if i < arr.length then arr.set i (some d)
  else arr ++ List.replicate (i - arr.length) none ++ [some d]

/-- The `sortTmp` computation of `printServices`: write every input
parameter into a sparse array at its index, then filter out the holes
(`sortTmp.filter(d => !!d)`), yielding the parameters in ascending index
order. -/
def sortTmpOf (params : List Param) : List Param :=
  (params.foldl (fun arr d => writeAt arr d.index d) []).filterMap id

/-- Modelled from the spec: `attachComment` lives in `src/protobuf/print.ts`
which is not part of the provided sources; per the spec's emission contract
it renders the declaration line, attaching the comment above it when one is
present and leaving the code line itself intact. -/
def attachComment (line : String) (comment : String) : String :=
  if comment == "" then line else "// " ++ comment ++ "\n" ++ line

/-- The per-method rendering inside `printServices`: sorted input parameters
rendered as `name: type` joined by commas, and the signature line
`key(params): Promise<returnType>;`. -/
def printServiceMethod (key : String) (i : FunctionEntity) : String :=
  let sortTmp := sortTmpOf i.inputParams
  let inputParamsStr := joinSep ", " (sortTmp.map (fun d => d.name ++ ": " ++ d.type))
  attachComment ("    " ++ key ++ "(" ++ inputParamsStr ++ "): Promise<" ++ i.returnType ++ ">;")
    i.comment

/-- `printServices(data)`: one exported interface block per service, with
one line per method. -/
def printServices (data : List ServiceEntity) : String :=
  data.foldl
    (fun rtn cur =>
      rtn ++ "  export interface " ++ cur.name ++ " \x7b\n" ++
        joinSep "\n" (cur.interfaces.map (fun p => printServiceMethod p.1 p.2)) ++
        "\n  \x7d\n\n")
    ""

/-! ### Derived definitions used in statements -/

/-- The registry key under which `crawlAST` files a node. -/
def keyOf (n : PbNode) : String := stripLeadingDot n.fullName

/-- Well-formedness of a registry as produced by `crawlAST` from parser
output: every enum or message entry has a simple name without a dot (parser
identifiers contain no separator) and a stripped fully-qualified name that
does contain a dot (such a node always sits below its package namespace). -/
def wfNodeMap (nm : NodeMap) : Prop :=
  ∀ p ∈ nm, ∀ e ∈ p.2,
    (e.type = PbKind.enum ∨ e.type = PbKind.message) →
      hasChar e.meta.name '.' = false ∧
        hasChar (stripLeadingDot e.meta.fullName) '.' = true

instance (nm : NodeMap) : Decidable (wfNodeMap nm) := by
  unfold wfNodeMap
  infer_instance

/-! ### Concrete example inputs -/

/-- A file whose namespace contains a message with a nested enum (C1). -/
def rootC1 : PbNode :=
  .nspace "pkg" ".pkg" [.messageN "M" ".pkg.M" [] [.enumN "Inner" ".pkg.M.Inner"]]

/-- A file declaring a message and an enum at namespace level (C1 witness). -/
def rootW1 : PbNode :=
  .nspace "pkg" ".pkg" [.messageN "A" ".pkg.A" [] [], .enumN "E" ".pkg.E"]

/-- A message declared identically in two files (C4 witness). -/
def dupNode : PbNode := .messageN "Dup" ".pkg.Dup" [] []

/-- A file declaring one message with the duplicated name (C4 witness). -/
def rootW4 : PbNode :=
  .nspace "pkg" ".pkg" [dupNode]

/-- An unresolved, non-primitive field referencing the bare name `T`. -/
def fieldT : PbField := { type := "T", resolved := false, hasResolvedType := false }

/-- An unresolved field of the primitive type `int32` (C5 witness). -/
def fieldInt32 : PbField := { type := "int32", resolved := false, hasResolvedType := false }

/-- A registry declaring `pkg.T` in one file (C2 counterexample). -/
def nmC2 : NodeMap :=
  [("pkg.T", [{ meta := .messageN "T" ".pkg.T" [] [], type := .message, filename := "b.proto" }])]

/-- A parsed file whose top-level message `Outer` nests a message `Inner`
with an unresolved field of type `T` (C2 counterexample). -/
def astC2 : AstData :=
  { package := "pkg"
    nsNode := .nspace "pkg" ".pkg"
      [.messageN "Outer" ".pkg.Outer" []
        [.messageN "Inner" ".pkg.Outer.Inner" [fieldT] []]] }

/-- A registry declaring `T` under both `pkg.T` and `other.T` (C3 witness). -/
def nmC3 : NodeMap :=
  [("pkg.T", [{ meta := .messageN "T" ".pkg.T" [] [], type := .message, filename := "a.proto" }]),
   ("other.T", [{ meta := .messageN "T" ".other.T" [] [], type := .message, filename := "c.proto" }])]

/-- A parsed file with a top-level message holding one `T` field (C6 witness). -/
def astC6 : AstData :=
  { package := "pkg"
    nsNode := .nspace "pkg" ".pkg" [.messageN "B" ".pkg.B" [fieldT] []] }

/-- A registry in which the key `xpkg.T` inserted first and the key `pkg.T`
inserted second both contain the search key `pkg.T` as a substring and both
hold a message named `T` (C10 witness: insertion order decides). -/
def nmC10 : NodeMap :=
  [("xpkg.T", [{ meta := .messageN "T" ".xpkg.T" [] [], type := .message, filename := "x.proto" }]),
   ("pkg.T", [{ meta := .messageN "T" ".pkg.T" [] [], type := .message, filename := "a.proto" }])]

/-- The package namespace node of the first well-formed witness file. -/
def pkgNsNode : PbNode := .nspace "pkg" ".pkg" [.messageN "A" ".pkg.A" [] []]

/-- A parse root declaring package `pkg` with one message (C7/C8 witness). -/
def goodRoot1 : PbNode := .nspace "" "" [pkgNsNode]

/-- A parse root declaring package `pkg2` with one enum (C7/C8 witness). -/
def goodRoot2 : PbNode :=
  .nspace "" "" [.nspace "pkg2" ".pkg2" [.enumN "E" ".pkg2.E"]]

/-- A file that parses fine and declares a package. -/
def fileGood1 : FileInput :=
  { filename := "good1.proto", parseResult := .ok { package := some "pkg", root := goodRoot1 } }

/-- A second file that parses fine and declares a package. -/
def fileGood2 : FileInput :=
  { filename := "good2.proto", parseResult := .ok { package := some "pkg2", root := goodRoot2 } }

/-- A file on which the external parser throws. -/
def fileBadParse : FileInput :=
  { filename := "bad.proto", parseResult := .error "parse error" }

/-- A file that parses fine but declares no package. -/
def fileNoPkg : FileInput :=
  { filename := "nopkg.proto", parseResult := .ok { package := none, root := .nspace "" "" [] } }

/-- The load state after processing `fileGood1` alone. -/
def stGood1 : LoadState :=
  { nodeMap :=
      [("pkg", [{ meta := pkgNsNode, type := .nspace, filename := "good1.proto" }]),
       ("pkg.A", [{ meta := .messageN "A" ".pkg.A" [] [], type := .message,
                    filename := "good1.proto" }])]
    astList := [{ package := "pkg", nsNode := pkgNsNode }] }

/-- A method with a declared request type (C9 witness). -/
def mW : Method :=
  { name := "getThing", requestType := some "Req", responseType := "Resp",
    comment := none }

/-- The function entity of the witness method. -/
def feW : FunctionEntity := convertMethodToFunctionEntity mW

/-- Positional invariant of the JS sparse array `sortTmp`: the slot at
offset `j` (counting from `k`) holds only a parameter of index `k + j`. -/
def invFrom : Nat → List (Option Param) → Prop
  | _, [] => True
  | k, o :: rest => (∀ d, o = some d → d.index = k) ∧ invFrom (k + 1) rest

/-! ### Registry builder lemmas -/

theorem getD_pushEntry (nm : NodeMap) (k : String) (e : PbNodeEntity) (key : String) :
    getD (pushEntry nm k e) key = getD nm key ++ (if k = key then [e] else []) := by
  induction nm with
  | nil =>
    by_cases h : k = key <;> simp [pushEntry, getD, h]
  | cons p rest ih =>
    obtain ⟨k0, es⟩ := p
    simp only [pushEntry]
    by_cases h0 : k0 = k
    · subst h0
      simp only [if_pos rfl]
      by_cases h1 : k0 = key
      · subst h1
        simp [getD]
      · simp [getD, h1]
    · simp only [if_neg h0]
      by_cases h1 : k0 = key
      · subst h1
        have hk : ¬ k = k0 := fun hh => h0 hh.symm
        simp [getD, hk]
      · simp [getD, h1, ih]

theorem crawlGo_getD (stack : List PbNode) (nm : NodeMap) (f key : String) :
    getD (crawlGo stack nm f) key =
      getD nm key ++
        ((visitL stack).filter (fun n => keyOf n == key)).map (fun n => mkEntity n f) := by
  induction stack, nm, f using crawlGo.induct with
  | case1 nm f => simp [crawlGo, visitL]
  | case2 nm f current rest ih =>
    rw [crawlGo, visitL]
    rw [ih, getD_pushEntry]
    by_cases h : stripLeadingDot current.fullName = key
    · simp [List.filter_cons, keyOf, h, List.append_assoc]
    · simp [List.filter_cons, keyOf, h]

/-! ### Resolver lemmas -/

theorem filterMatches_mem {node : List PbNodeEntity} {fieldType : String}
    {d : PbNodeEntity} (h : d ∈ filterMatches node fieldType) :
    d ∈ node ∧ (d.type = PbKind.enum ∨ d.type = PbKind.message) ∧
      d.meta.name = fieldType := by
  have h' := List.mem_filter.mp h
  have h2 := h'.2
  simp only [Bool.or_eq_true, Bool.and_eq_true, beq_iff_eq] at h2
  rcases h2 with ⟨ht, hn⟩ | ⟨ht, hn⟩
  · exact ⟨h'.1, Or.inl ht, hn⟩
  · exact ⟨h'.1, Or.inr ht, hn⟩

theorem findRewrite_some_mem {nm : NodeMap} {fieldType ff t : String}
    (h : findRewrite nm fieldType ff = some t) :
    ∃ p ∈ nm, ∃ d ∈ p.2,
      (d.type = PbKind.enum ∨ d.type = PbKind.message) ∧
        d.meta.name = fieldType ∧ t = stripLeadingDot d.meta.fullName := by
  induction nm with
  | nil => simp [findRewrite] at h
  | cons p rest ih =>
    obtain ⟨ns, node⟩ := p
    rw [findRewrite] at h
    by_cases hinc : strIncludes ns ff = true
    · rw [if_pos hinc] at h
      cases hfm : filterMatches node fieldType with
      | nil =>
        rw [hfm] at h
        obtain ⟨q, hq, d, hd, hrest⟩ := ih h
        exact ⟨q, List.mem_cons_of_mem _ hq, d, hd, hrest⟩
      | cons d ds =>
        rw [hfm] at h
        have hdmem : d ∈ filterMatches node fieldType := by
          rw [hfm]; exact List.mem_cons_self d ds
        obtain ⟨hnode, hkind, hname⟩ := filterMatches_mem hdmem
        refine ⟨(ns, node), List.mem_cons_self _ _, d, hnode, hkind, hname, ?_⟩
        simpa using h.symm
    · rw [if_neg hinc] at h
      obtain ⟨q, hq, d, hd, hrest⟩ := ih h
      exact ⟨q, List.mem_cons_of_mem _ hq, d, hd, hrest⟩

/-- Under a well-formed registry, any successful rewrite answer contains a
dot. -/
theorem findRewrite_some_dotted {nm : NodeMap} {fieldType ff t : String}
    (wf : wfNodeMap nm) (h : findRewrite nm fieldType ff = some t) :
    hasChar t '.' = true := by
  obtain ⟨p, hp, d, hd, hkind, _, ht⟩ := findRewrite_some_mem h
  rw [ht]
  exact (wf p hp d hd hkind).2

/-- Under a well-formed registry, a field type that already contains a dot
never survives the filter (simple names are dot-free), so no candidate can
rewrite it. -/
theorem findRewrite_none_of_dotted {nm : NodeMap} {fieldType : String}
    (wf : wfNodeMap nm) (hdot : hasChar fieldType '.' = true) (ff : String) :
    findRewrite nm fieldType ff = none := by
  induction nm with
  | nil => rfl
  | cons p rest ih =>
    obtain ⟨ns, node⟩ := p
    have hwfrest : wfNodeMap rest := fun q hq => wf q (List.mem_cons_of_mem _ hq)
    have hfm : filterMatches node fieldType = [] := by
      rw [filterMatches, List.filter_eq_nil_iff]
      intro e he
      intro hpred
      obtain ⟨-, hkind, hname⟩ :=
        filterMatches_mem (d := e) (List.mem_filter.mpr ⟨he, hpred⟩)
      have hfree := (wf (ns, node) (List.mem_cons_self _ _) e he hkind).1
      rw [hname] at hfree
      simp [hfree] at hdot
    rw [findRewrite]
    by_cases hinc : strIncludes ns ff = true
    · rw [if_pos hinc, hfm]
      exact ih hwfrest
    · rw [if_neg hinc]
      exact ih hwfrest

/-- A type name containing a dot is never in the primitive set. -/
theorem isOriginType_eq_false_of_dot {t : String} (h : hasChar t '.' = true) :
    isOriginType t = false := by
  cases horigin : isOriginType t with
  | false => rfl
  | true =>
    exfalso
    have hmem : t ∈ originTypes := by
      have := horigin
      simp only [isOriginType, decide_eq_true_eq] at this
      exact this
    fin_cases hmem <;> simp [hasChar] at h

/-- Unfolding of the resolver body when the field is eligible for
resolution. -/
theorem resolveFieldType_eligible (pkg : String) (nm : NodeMap) (f : PbField)
    (h1 : f.resolved = false) (h2 : f.hasResolvedType = false)
    (h3 : isOriginType f.type = false) :
    resolveFieldType pkg nm f =
      (let fld1 :=
        match findRewrite nm f.type (ffOf (pkg ++ "." ++ f.type)) with
        | some newType => { f with type := newType }
        | none => f
      match findRewrite nm fld1.type (ffOf f.type) with
      | some newType => { fld1 with type := newType }
      | none => fld1) := by
  rw [resolveFieldType, h1, h2, h3]
  simp [List.foldl]
  simp [h1, h2]

/-- If the package-qualified candidate finds a match, the field is rewritten
to it and (under a well-formed registry) the bare candidate that the
source's non-short-circuiting `some` still runs can no longer change the
field. -/
theorem resolveFieldType_first (pkg : String) (nm : NodeMap) (f : PbField)
    (wf : wfNodeMap nm)
    (h1 : f.resolved = false) (h2 : f.hasResolvedType = false)
    (h3 : isOriginType f.type = false) {t : String}
    (hfind : findRewrite nm f.type (ffOf (pkg ++ "." ++ f.type)) = some t) :
    resolveFieldType pkg nm f = { f with type := t } := by
  rw [resolveFieldType_eligible pkg nm f h1 h2 h3]
  simp only [hfind]
  have hdot : hasChar t '.' = true := findRewrite_some_dotted wf hfind
  rw [findRewrite_none_of_dotted wf hdot]

/-- If the package-qualified candidate finds nothing and the bare candidate
does, the field is rewritten to the bare candidate's answer. -/
theorem resolveFieldType_second (pkg : String) (nm : NodeMap) (f : PbField)
    (h1 : f.resolved = false) (h2 : f.hasResolvedType = false)
    (h3 : isOriginType f.type = false) {t : String}
    (hnone : findRewrite nm f.type (ffOf (pkg ++ "." ++ f.type)) = none)
    (hfind : findRewrite nm f.type (ffOf f.type) = some t) :
    resolveFieldType pkg nm f = { f with type := t } := by
  rw [resolveFieldType_eligible pkg nm f h1 h2 h3]
  simp only [hnone, hfind]

/-- If neither candidate finds a match, the field is left unchanged. -/
theorem resolveFieldType_unmatched (pkg : String) (nm : NodeMap) (f : PbField)
    (h1 : f.resolved = false) (h2 : f.hasResolvedType = false)
    (h3 : isOriginType f.type = false)
    (hnone1 : findRewrite nm f.type (ffOf (pkg ++ "." ++ f.type)) = none)
    (hnone2 : findRewrite nm f.type (ffOf f.type) = none) :
    resolveFieldType pkg nm f = f := by
  rw [resolveFieldType_eligible pkg nm f h1 h2 h3]
  simp only [hnone1, hnone2]

/-- An ineligible field (already resolved, carrying a resolved type node, or
of primitive type) is returned unchanged. -/
theorem resolveFieldType_ineligible (pkg : String) (nm : NodeMap) (f : PbField)
    (h : f.resolved = true ∨ f.hasResolvedType = true ∨ isOriginType f.type = true) :
    resolveFieldType pkg nm f = f := by
  rcases h with h | h | h <;> simp [resolveFieldType, h]

/-- Field-level idempotence of the resolver over a fixed well-formed
registry. -/
theorem resolveFieldType_idem (pkg : String) (nm : NodeMap) (f : PbField)
    (wf : wfNodeMap nm) :
    resolveFieldType pkg nm (resolveFieldType pkg nm f) = resolveFieldType pkg nm f := by
  cases h1 : f.resolved with
  | true => rw [resolveFieldType_ineligible pkg nm f (Or.inl h1),
      resolveFieldType_ineligible pkg nm f (Or.inl h1)]
  | false =>
  cases h2 : f.hasResolvedType with
  | true => rw [resolveFieldType_ineligible pkg nm f (Or.inr (Or.inl h2)),
      resolveFieldType_ineligible pkg nm f (Or.inr (Or.inl h2))]
  | false =>
  cases h3 : isOriginType f.type with
  | true => rw [resolveFieldType_ineligible pkg nm f (Or.inr (Or.inr h3)),
      resolveFieldType_ineligible pkg nm f (Or.inr (Or.inr h3))]
  | false =>
    cases hr1 : findRewrite nm f.type (ffOf (pkg ++ "." ++ f.type)) with
    | some t =>
      have hres := resolveFieldType_first pkg nm f wf h1 h2 h3 hr1
      rw [hres]
      have hdot : hasChar t '.' = true := findRewrite_some_dotted wf hr1
      exact resolveFieldType_unmatched pkg nm { f with type := t } h1 h2
        (isOriginType_eq_false_of_dot hdot)
        (findRewrite_none_of_dotted wf hdot _)
        (findRewrite_none_of_dotted wf hdot _)
    | none =>
      cases hr2 : findRewrite nm f.type (ffOf f.type) with
      | some t =>
        have hres := resolveFieldType_second pkg nm f h1 h2 h3 hr1 hr2
        rw [hres]
        have hdot : hasChar t '.' = true := findRewrite_some_dotted wf hr2
        exact resolveFieldType_unmatched pkg nm { f with type := t } h1 h2
          (isOriginType_eq_false_of_dot hdot)
          (findRewrite_none_of_dotted wf hdot _)
          (findRewrite_none_of_dotted wf hdot _)
      | none =>
        have hres := resolveFieldType_unmatched pkg nm f h1 h2 h3 hr1 hr2
        rw [hres, hres]

/-! ### Claim C3 -/

/-- Claim C3: during resolution of one field, the package-qualified
candidate `<package>.<bare-name>` is tried before the bare name; the field
is rewritten to the fully-qualified name (leading dot stripped) of the
first surviving entry of the first candidate that yields a surviving entry;
once a candidate matched, the remaining candidate never changes the field
again (the registry being well-formed); and when no candidate matches the
field's type string is left unchanged and no error is raised. -/
theorem c3_candidate_order_and_fallback (pkg : String) (nm : NodeMap) (f : PbField)
    (wf : wfNodeMap nm)
    (h1 : f.resolved = false) (h2 : f.hasResolvedType = false)
    (h3 : isOriginType f.type = false) :
    (∀ t, findRewrite nm f.type (ffOf (pkg ++ "." ++ f.type)) = some t →
        resolveFieldType pkg nm f = { f with type := t })
    ∧ (findRewrite nm f.type (ffOf (pkg ++ "." ++ f.type)) = none →
        ∀ t, findRewrite nm f.type (ffOf f.type) = some t →
          resolveFieldType pkg nm f = { f with type := t })
    ∧ (findRewrite nm f.type (ffOf (pkg ++ "." ++ f.type)) = none →
        findRewrite nm f.type (ffOf f.type) = none →
        resolveFieldType pkg nm f = f) :=
  ⟨fun _ ht => resolveFieldType_first pkg nm f wf h1 h2 h3 ht,
   fun hn _ ht => resolveFieldType_second pkg nm f h1 h2 h3 hn ht,
   fun hn1 hn2 => resolveFieldType_unmatched pkg nm f h1 h2 h3 hn1 hn2⟩

/-- Witness for C3 on a concrete registry: both candidates would match, the
package-qualified one wins, and the field is rewritten to `pkg.T`. -/
theorem c3_candidate_order_and_fallback_witness :
    wfNodeMap nmC3 ∧
      resolveFieldType "pkg" nmC3 fieldT = { fieldT with type := "pkg.T" } :=
  ⟨by decide,
    (c3_candidate_order_and_fallback "pkg" nmC3 fieldT (by decide) rfl rfl
      (by decide)).1 "pkg.T" (by decide)⟩

/-! ### Claim C5 -/

/-- Claim C5: for every type name in the fixed primitive set, running the
resolver on a field whose type exactly equals that name never mutates the
field. -/
theorem c5_primitives_untouched (pkg : String) (nm : NodeMap) (f : PbField)
    (h : f.type ∈ originTypes) :
    resolveFieldType pkg nm f = f :=
  resolveFieldType_ineligible pkg nm f
    (Or.inr (Or.inr (by simp [isOriginType, h])))

/-- Witness for C5: an `int32` field is returned unchanged. -/
theorem c5_primitives_untouched_witness :
    fieldInt32.type ∈ originTypes ∧
      resolveFieldType "pkg" nmC3 fieldInt32 = fieldInt32 :=
  ⟨by decide, c5_primitives_untouched "pkg" nmC3 fieldInt32 (by decide)⟩

/-! ### Claim C6 -/

theorem resolveDirectMessage_idem (pkg : String) (nm : NodeMap)
    (wf : wfNodeMap nm) (d : PbNode) :
    resolveDirectMessage pkg nm (resolveDirectMessage pkg nm d) =
      resolveDirectMessage pkg nm d := by
  cases d <;> simp [resolveDirectMessage]
  intro a _
  exact resolveFieldType_idem pkg nm a wf

/-- Claim C6: the resolver is idempotent over a fixed (well-formed)
registry — applying `crawlAstAndAttachNamespace` twice yields exactly the
same fields as applying it once. -/
theorem c6_resolver_idempotent (ast : AstData) (nm : NodeMap)
    (wf : wfNodeMap nm) :
    crawlAstAndAttachNamespace (crawlAstAndAttachNamespace ast nm) nm =
      crawlAstAndAttachNamespace ast nm := by
  obtain ⟨pkg, N⟩ := ast
  simp only [crawlAstAndAttachNamespace]
  cases N <;> simp [nestedArray, withNested, List.map_map] <;>
    exact fun a _ => resolveDirectMessage_idem pkg nm wf a

/-- Witness for C6 on a concrete file and registry: the field `T` resolves
to `pkg.T` on the first pass and stays there on the second. -/
theorem c6_resolver_idempotent_witness :
    wfNodeMap nmC3 ∧
      crawlAstAndAttachNamespace (crawlAstAndAttachNamespace astC6 nmC3) nmC3 =
        crawlAstAndAttachNamespace astC6 nmC3 :=
  ⟨by decide, c6_resolver_idempotent astC6 nmC3 (by decide)⟩

/-! ### Claim C10 -/

theorem findRewrite_append_first (nm1 nm2 : NodeMap) (ns : String)
    (entries : List PbNodeEntity) (fieldType ff : String)
    (d : PbNodeEntity) (ds : List PbNodeEntity)
    (hskip : ∀ p ∈ nm1, strIncludes p.1 ff = false ∨ filterMatches p.2 fieldType = [])
    (hhit : strIncludes ns ff = true)
    (hfilter : filterMatches entries fieldType = d :: ds) :
    findRewrite (nm1 ++ (ns, entries) :: nm2) fieldType ff =
      some (stripLeadingDot d.meta.fullName) := by
  induction nm1 with
  | nil =>
    rw [List.nil_append, findRewrite, if_pos hhit, hfilter]
  | cons p rest ih =>
    have hrest : ∀ q ∈ rest, strIncludes q.1 ff = false ∨ filterMatches q.2 fieldType = [] :=
      fun q hq => hskip q (List.mem_cons_of_mem _ hq)
    obtain ⟨ns0, node0⟩ := p
    rw [List.cons_append, findRewrite]
    rcases hskip (ns0, node0) (List.mem_cons_self _ _) with hs | hs
    · rw [if_neg (by simp [hs])]
      exact ih hrest
    · by_cases hinc : strIncludes ns0 ff = true
      · rw [if_pos hinc, hs]
        exact ih hrest
      · rw [if_neg hinc]
        exact ih hrest

/-- Claim C10: when a field's type reference could match several registry
entries, the resolver deterministically rewrites the field to the
fully-qualified name (leading dot stripped) of the first surviving entry
(`filteredData[0]`) of the first key, in registry insertion order, that
contains the package-qualified search key and survives the filter. -/
theorem c10_first_match_in_insertion_order (pkg : String) (f : PbField)
    (nm1 nm2 : NodeMap) (ns : String) (entries : List PbNodeEntity)
    (d : PbNodeEntity) (ds : List PbNodeEntity)
    (wf : wfNodeMap (nm1 ++ (ns, entries) :: nm2))
    (h1 : f.resolved = false) (h2 : f.hasResolvedType = false)
    (h3 : isOriginType f.type = false)
    (hskip : ∀ p ∈ nm1,
      strIncludes p.1 (ffOf (pkg ++ "." ++ f.type)) = false ∨
        filterMatches p.2 f.type = [])
    (hhit : strIncludes ns (ffOf (pkg ++ "." ++ f.type)) = true)
    (hfilter : filterMatches entries f.type = d :: ds) :
    resolveFieldType pkg (nm1 ++ (ns, entries) :: nm2) f =
      { f with type := stripLeadingDot d.meta.fullName } :=
  resolveFieldType_first pkg _ f wf h1 h2 h3
    (findRewrite_append_first nm1 nm2 ns entries f.type _ d ds hskip hhit hfilter)

/-- Witness for C10: with `xpkg.T` inserted before `pkg.T`, both keys
contain the search key `pkg.T`, and the field is rewritten to `xpkg.T` —
the resolved type depends only on registry contents and insertion order. -/
theorem c10_first_match_in_insertion_order_witness :
    resolveFieldType "pkg" nmC10 fieldT = { fieldT with type := "xpkg.T" } :=
  c10_first_match_in_insertion_order "pkg" fieldT []
    [("pkg.T", [{ meta := .messageN "T" ".pkg.T" [] [], type := .message, filename := "a.proto" }])]
    "xpkg.T" [{ meta := .messageN "T" ".xpkg.T" [] [], type := .message, filename := "x.proto" }]
    { meta := .messageN "T" ".xpkg.T" [] [], type := .message, filename := "x.proto" } []
    (by decide) rfl rfl (by decide) (by simp) (by decide) rfl

/-! ### Claim C4 -/

/-- Claim C4: when `crawlAST` meets a node whose fully-qualified name is
already a registry key it appends to the existing list and never overwrites
or drops an earlier entry (the old list is a prefix of the new one); hence
two files declaring the same fully-qualified name both keep their entries. -/
theorem c4_duplicates_appended (nm : NodeMap) (root : PbNode) (f key : String) :
    getD nm key <+: getD (crawlAST root nm f) key
    ∧ ∀ (root2 : PbNode) (f2 : String) (n1 n2 : PbNode),
        n1 ∈ visitL [root] → n2 ∈ visitL [root2] →
        keyOf n1 = key → keyOf n2 = key →
        mkEntity n1 f ∈ getD (crawlAST root2 (crawlAST root nm f) f2) key ∧
          mkEntity n2 f2 ∈ getD (crawlAST root2 (crawlAST root nm f) f2) key := by
  constructor
  · rw [crawlAST, crawlGo_getD]
    exact ⟨_, rfl⟩
  · intro root2 f2 n1 n2 hn1 hn2 hk1 hk2
    rw [crawlAST, crawlAST, crawlGo_getD, crawlGo_getD]
    constructor
    · refine List.mem_append_left _ (List.mem_append_right _ ?_)
      exact List.mem_map_of_mem _
        (List.mem_filter.mpr ⟨hn1, by simp [hk1]⟩)
    · refine List.mem_append_right _ ?_
      exact List.mem_map_of_mem _
        (List.mem_filter.mpr ⟨hn2, by simp [hk2]⟩)

/-- Witness for C4: crawling the same declaration from `a.proto` and then
from `b.proto` leaves both entries under `pkg.Dup`. -/
theorem c4_duplicates_appended_witness :
    mkEntity dupNode "a.proto" ∈
        getD (crawlAST rootW4 (crawlAST rootW4 [] "a.proto") "b.proto") "pkg.Dup"
    ∧ mkEntity dupNode "b.proto" ∈
        getD (crawlAST rootW4 (crawlAST rootW4 [] "a.proto") "b.proto") "pkg.Dup" := by
  have hmem : dupNode ∈ visitL [rootW4] := by
    simp [visitL, childrenToPush, rootW4]
  exact (c4_duplicates_appended [] rootW4 "a.proto" "pkg.Dup").2
    rootW4 "b.proto" dupNode dupNode hmem hmem rfl rfl

/-! ### Claim C1 -/

/-- Claim C1 is falsified by the source: a type nested inside a message is
declared in the file (it is in `allNodes`) but `crawlAST` never registers
it — the message branch of the `instanceof` chain does not push children,
so `nodeMap` has no entry at all under the nested type's fully-qualified
name, not one entry per declaring file. -/
theorem c1_counterexample :
    PbNode.enumN "Inner" ".pkg.M.Inner" ∈ allNodes rootC1 ∧
      lookup? (crawlAST rootC1 [] "a.proto") "pkg.M.Inner" = none := by
  constructor
  · simp [allNodes, allNodes.allNodesList, rootC1]
  · simp only [crawlAST, rootC1]
    simp [crawlGo, childrenToPush, pushEntry, stripLeadingDot, mkEntity,
      lookup?, PbNode.fullName, kindOf]

/-- Claim C1 (amended): every enum, message and service reachable from the
file's namespace root through namespace nesting (sub-namespaces included,
message-nested types excluded) is registered under its fully-qualified name
(leading dot stripped) exactly once per file that declares it. -/
theorem c1_registered_once_per_file (root : PbNode) (nm : NodeMap)
    (f : String) (n : PbNode)
    (hnodup : ((visitL [root]).map keyOf).Nodup)
    (hn : n ∈ visitL [root])
    (hfresh : (getD nm (keyOf n)).countP (fun e => e.filename == f) = 0) :
    (getD (crawlAST root nm f) (keyOf n)).countP (fun e => e.filename == f) = 1 := by
  rw [crawlAST, crawlGo_getD, List.countP_append, hfresh, Nat.zero_add,
    List.countP_map]
  have hcomp :
      ((fun e : PbNodeEntity => e.filename == f) ∘ (fun n' => mkEntity n' f)) =
        fun _ => true := by
    funext m
    simp [mkEntity]
  rw [hcomp, List.countP_true, ← List.countP_eq_length_filter]
  have hcount :
      (visitL [root]).countP (fun n' => keyOf n' == keyOf n) =
        List.count (keyOf n) ((visitL [root]).map keyOf) := by
    rw [List.count, List.countP_map]
    rfl
  rw [hcount]
  exact List.count_eq_one_of_mem hnodup (List.mem_map_of_mem _ hn)

/-- Witness for the amended C1: in a file declaring a namespace-level
message `A` and enum `E`, the message `A` ends up with exactly one entry. -/
theorem c1_registered_once_per_file_witness :
    (PbNode.messageN "A" ".pkg.A" [] []) ∈ visitL [rootW1] ∧
      (getD (crawlAST rootW1 [] "w.proto")
          (keyOf (PbNode.messageN "A" ".pkg.A" [] []))).countP
        (fun e => e.filename == "w.proto") = 1 := by
  have hmem : (PbNode.messageN "A" ".pkg.A" [] []) ∈ visitL [rootW1] := by
    simp [visitL, childrenToPush, rootW1]
  refine ⟨hmem, c1_registered_once_per_file rootW1 [] "w.proto" _ ?_ hmem rfl⟩
  simp [visitL, childrenToPush, rootW1, keyOf, stripLeadingDot, PbNode.fullName]

/-! ### Claim C2 -/

/-- Claim C2 is falsified by the source: the resolver walks only the direct
children of the package namespace node, so the eligible field of the
message `Inner`, nested inside the top-level message `Outer`, is never
attempted (the whole file is returned unchanged) even though running the
per-field resolver on it would rewrite it to `pkg.T`. -/
theorem c2_counterexample :
    crawlAstAndAttachNamespace astC2 nmC2 = astC2 ∧
      resolveFieldType "pkg" nmC2 fieldT = { fieldT with type := "pkg.T" } :=
  ⟨rfl, rfl⟩

/-- Claim C2 (amended): the resolution attempt covers every field of every
top-level message — a direct child of the package namespace node — but not
messages nested inside other messages. -/
theorem c2_resolution_covers_top_level_messages (ast : AstData) (nm : NodeMap)
    (name fn : String) (fields : List PbField) (nested : List PbNode)
    (hmem : PbNode.messageN name fn fields nested ∈ nestedArray ast.nsNode) :
    PbNode.messageN name fn (fields.map (resolveFieldType ast.package nm)) nested
      ∈ nestedArray (crawlAstAndAttachNamespace ast nm).nsNode := by
  obtain ⟨pkg, N⟩ := ast
  simp only [crawlAstAndAttachNamespace] at *
  cases N with
  | enumN n f => simp [nestedArray] at hmem
  | serviceN n f ms => simp [nestedArray] at hmem
  | messageN n f flds c =>
    simp only [nestedArray, withNested] at *
    have h := List.mem_map_of_mem (resolveDirectMessage pkg nm) hmem
    simpa [resolveDirectMessage] using h
  | nspace n f c =>
    simp only [nestedArray, withNested] at *
    have h := List.mem_map_of_mem (resolveDirectMessage pkg nm) hmem
    simpa [resolveDirectMessage] using h

/-- Witness for the amended C2: the top-level message `B` has its field
attempted and resolved to `pkg.T`. -/
theorem c2_resolution_covers_top_level_messages_witness :
    PbNode.messageN "B" ".pkg.B" [{ fieldT with type := "pkg.T" }] [] ∈
      nestedArray (crawlAstAndAttachNamespace astC6 nmC3).nsNode := by
  have h := c2_resolution_covers_top_level_messages astC6 nmC3 "B" ".pkg.B"
    [fieldT] [] (by simp [astC6, nestedArray])
  exact h

/-! ### Pipeline lemmas -/

theorem except_bind_ok {γ α β : Type} {x : Except γ α} {f : α → Except γ β}
    {b : β} (h : (x >>= f) = .ok b) : ∃ a, x = .ok a ∧ f a = .ok b := by
  cases x with
  | error e => simp [Bind.bind, Except.bind] at h
  | ok a => exact ⟨a, rfl, by simpa [Bind.bind, Except.bind] using h⟩

theorem pushEntry_mem (nm : NodeMap) (k : String) (e : PbNodeEntity) :
    ∀ p ∈ pushEntry nm k e, ∀ x ∈ p.2, (∃ q ∈ nm, x ∈ q.2) ∨ x = e := by
  induction nm with
  | nil =>
    intro p hp x hx
    simp [pushEntry] at hp
    subst hp
    simp at hx
    exact Or.inr hx
  | cons p0 rest ih =>
    intro p hp x hx
    obtain ⟨k0, es⟩ := p0
    rw [pushEntry] at hp
    by_cases h0 : k0 = k
    · rw [if_pos h0] at hp
      rcases List.mem_cons.mp hp with rfl | hp'
      · rcases List.mem_append.mp hx with hxe | hxe
        · exact Or.inl ⟨(k0, es), List.mem_cons_self _ _, hxe⟩
        · exact Or.inr (by simpa using hxe)
      · exact Or.inl ⟨p, List.mem_cons_of_mem _ hp', hx⟩
    · rw [if_neg h0] at hp
      rcases List.mem_cons.mp hp with rfl | hp'
      · exact Or.inl ⟨(k0, es), List.mem_cons_self _ _, hx⟩
      · rcases ih p hp' x hx with ⟨q, hq, hxq⟩ | hxe
        · exact Or.inl ⟨q, List.mem_cons_of_mem _ hq, hxq⟩
        · exact Or.inr hxe

theorem crawlGo_mem (stack : List PbNode) (nm : NodeMap) (f : String) :
    ∀ p ∈ crawlGo stack nm f, ∀ x ∈ p.2, (∃ q ∈ nm, x ∈ q.2) ∨ x.filename = f := by
  induction stack, nm, f using crawlGo.induct with
  | case1 nm f =>
    intro p hp x hx
    exact Or.inl ⟨p, by simpa [crawlGo] using hp, hx⟩
  | case2 nm f current rest ih =>
    intro p hp x hx
    rw [crawlGo] at hp
    rcases ih p hp x hx with ⟨q, hq, hxq⟩ | hf
    · rcases pushEntry_mem nm _ _ q hq x hxq with ⟨r, hr, hxr⟩ | hxe
      · exact Or.inl ⟨r, hr, hxr⟩
      · exact Or.inr (by rw [hxe]; rfl)
    · exact Or.inr hf

theorem loadPb_filenames (files : List FileInput) (st0 st : LoadState)
    (h : files.foldlM processFile st0 = .ok st) :
    ∀ p ∈ st.nodeMap, ∀ x ∈ p.2,
      (∃ q ∈ st0.nodeMap, x ∈ q.2) ∨ x.filename ∈ files.map FileInput.filename := by
  induction files generalizing st0 with
  | nil =>
    intro p hp x hx
    have hst : st0 = st := by
      simpa [List.foldlM, pure, Except.pure] using h
    subst hst
    exact Or.inl ⟨p, hp, hx⟩
  | cons file rest ih =>
    intro p hp x hx
    rw [List.foldlM_cons] at h
    obtain ⟨s1, hs1, hrest⟩ := except_bind_ok h
    rcases ih s1 hrest p hp x hx with hin | hmem
    · obtain ⟨q, hq, hxq⟩ := hin
      cases hpr : file.parseResult with
      | error e =>
        simp only [processFile, hpr] at hs1
        injection hs1 with hs1'
        subst hs1'
        exact Or.inl ⟨q, hq, hxq⟩
      | ok ast =>
        simp only [processFile, hpr] at hs1
        cases hpkg : ast.package with
        | none => simp [hpkg] at hs1
        | some ns =>
          simp only [hpkg] at hs1
          cases hlk : lookupPath ast.root (splitDots ns) with
          | none => simp [hlk] at hs1
          | some nsNode =>
            simp only [hlk] at hs1
            injection hs1 with hs1'
            subst hs1'
            simp only [crawlAST] at hq
            rcases crawlGo_mem [nsNode] st0.nodeMap file.filename q hq x hxq with
              ⟨r, hr, hxr⟩ | hf
            · exact Or.inl ⟨r, hr, hxr⟩
            · exact Or.inr (by simp [hf])
    · exact Or.inr (List.mem_cons_of_mem _ hmem)

theorem lookup?_pushEntry_ne_none (nm : NodeMap) (k : String) (e : PbNodeEntity)
    (k' : String) (h : lookup? (pushEntry nm k e) k' ≠ none) :
    k = k' ∨ lookup? nm k' ≠ none := by
  induction nm with
  | nil =>
    by_cases hk : k = k'
    · exact Or.inl hk
    · exfalso
      apply h
      simp [pushEntry, lookup?, hk]
  | cons p0 rest ih =>
    obtain ⟨k0, es⟩ := p0
    by_cases h1 : k0 = k'
    · exact Or.inr (by simp [lookup?, h1])
    · by_cases h0 : k0 = k
      · rw [pushEntry, if_pos h0, lookup?, if_neg h1] at h
        refine Or.inr ?_
        simpa [lookup?, h1] using h
      · rw [pushEntry, if_neg h0, lookup?, if_neg h1] at h
        rcases ih h with hk | hno
        · exact Or.inl hk
        · refine Or.inr ?_
          simpa [lookup?, h1] using hno

theorem pushList_keys (ds : List PbNodeEntity) (fm : NodeMap) (k : String)
    (h : lookup? (ds.foldl (fun fm d => pushEntry fm d.filename d) fm) k ≠ none) :
    lookup? fm k ≠ none ∨ ∃ d ∈ ds, d.filename = k := by
  induction ds generalizing fm with
  | nil => exact Or.inl h
  | cons d rest ih =>
    simp only [List.foldl_cons] at h
    rcases ih (pushEntry fm d.filename d) h with hf | hd
    · rcases lookup?_pushEntry_ne_none fm d.filename d k hf with hk | hno
      · exact Or.inr ⟨d, List.mem_cons_self _ _, hk⟩
      · exact Or.inl hno
    · obtain ⟨d', hd', hk⟩ := hd
      exact Or.inr ⟨d', List.mem_cons_of_mem _ hd', hk⟩

theorem fnmGo_keys (nm : NodeMap) (fm0 : NodeMap) (k : String)
    (h : lookup?
        (nm.foldl
          (fun fm p => p.2.foldl (fun fm datum => pushEntry fm datum.filename datum) fm)
          fm0) k ≠ none) :
    lookup? fm0 k ≠ none ∨ ∃ p ∈ nm, ∃ d ∈ p.2, d.filename = k := by
  induction nm generalizing fm0 with
  | nil => exact Or.inl h
  | cons p rest ih =>
    simp only [List.foldl_cons] at h
    rcases ih _ h with hf | hex
    · rcases pushList_keys p.2 fm0 k hf with hf0 | hd
      · exact Or.inl hf0
      · obtain ⟨d, hd', hk⟩ := hd
        exact Or.inr ⟨p, List.mem_cons_self _ _, d, hd', hk⟩
    · obtain ⟨q, hq, d, hd', hk⟩ := hex
      exact Or.inr ⟨q, List.mem_cons_of_mem _ hq, d, hd', hk⟩

theorem filenameNodeMap_keys (nm : NodeMap) (k : String)
    (h : lookup? (filenameNodeMap nm) k ≠ none) :
    ∃ p ∈ nm, ∃ d ∈ p.2, d.filename = k := by
  rcases fnmGo_keys nm [] k (by simpa [filenameNodeMap] using h) with hno | hex
  · exact absurd rfl hno
  · exact hex

/-! ### Claim C7 -/

/-- Claim C7: a file on which the external parser throws contributes no
registry entries and no output and lands in the error log, while every
other input file is processed exactly as it would have been without the
failing file; the run as a whole still succeeds. -/
theorem c7_parse_error_isolated (pre post : List FileInput) (bad : FileInput)
    (e : String) (st : LoadState)
    (hbad : bad.parseResult = .error e)
    (hrun : loadPbCore (pre ++ post) = .ok st)
    (hdistinct : bad.filename ∉ (pre ++ post).map FileInput.filename) :
    loadPbCore (pre ++ bad :: post) = .ok st
    ∧ bad.filename ∈ parseErrorLog (pre ++ bad :: post)
    ∧ (∀ p ∈ st.nodeMap, ∀ x ∈ p.2, x.filename ≠ bad.filename)
    ∧ bad.filename ∉ emittedFiles (pre ++ bad :: post) (filenameNodeMap st.nodeMap)
    ∧ emittedFiles (pre ++ bad :: post) (filenameNodeMap st.nodeMap) =
        emittedFiles (pre ++ post) (filenameNodeMap st.nodeMap) := by
  have hrun0 := hrun
  rw [loadPbCore, List.foldlM_append] at hrun
  obtain ⟨s1, hpre, hpost⟩ := except_bind_ok hrun
  have hskip : processFile s1 bad = .ok s1 := by
    simp [processFile, hbad]
  have hfull : loadPbCore (pre ++ bad :: post) = .ok st := by
    rw [loadPbCore, List.foldlM_append, hpre]
    simp only [Bind.bind, Except.bind]
    rw [List.foldlM_cons, hskip]
    simpa [Bind.bind, Except.bind] using hpost
  have hfile : ∀ p ∈ st.nodeMap, ∀ x ∈ p.2, x.filename ≠ bad.filename := by
    intro p hp x hx hcontra
    rw [loadPbCore] at hrun0
    rcases loadPb_filenames (pre ++ post) ⟨[], []⟩ st hrun0 p hp x hx with hin | hmem
    · obtain ⟨q, hq, -⟩ := hin
      simp at hq
    · rw [hcontra] at hmem
      exact hdistinct hmem
  have hlookup : lookup? (filenameNodeMap st.nodeMap) bad.filename = none := by
    by_contra hno
    obtain ⟨p, hp, d, hd, hk⟩ := filenameNodeMap_keys _ _ hno
    exact hfile p hp d hd hk
  have hnotem :
      bad.filename ∉ emittedFiles (pre ++ bad :: post) (filenameNodeMap st.nodeMap) := by
    intro hmem
    rw [emittedFiles] at hmem
    obtain ⟨f, hf, hout⟩ := List.mem_filterMap.mp hmem
    split at hout
    · simp at hout
    · rename_i data hl
      split at hout
      · simp at hout
      · simp only [Option.some.injEq] at hout
        rw [hout, hlookup] at hl
        cases hl
  have hemeq :
      emittedFiles (pre ++ bad :: post) (filenameNodeMap st.nodeMap) =
        emittedFiles (pre ++ post) (filenameNodeMap st.nodeMap) := by
    rw [emittedFiles, emittedFiles]
    rw [List.filterMap_append, List.filterMap_append, List.filterMap_cons]
    rw [hlookup]
  have hlog : bad.filename ∈ parseErrorLog (pre ++ bad :: post) := by
    rw [parseErrorLog]
    refine List.mem_filterMap.mpr ⟨bad, ?_, ?_⟩
    · exact List.mem_append_right _ (List.mem_cons_self _ _)
    · rw [hbad]
  exact ⟨hfull, hlog, hfile, hnotem, hemeq⟩

theorem loadPbCore_good1 : loadPbCore [fileGood1] = .ok stGood1 := by
  simp [loadPbCore, List.foldlM, processFile, fileGood1, goodRoot1, splitDots,
    splitDotsAux, lookupPath, findNested, nestedArray, PbNode.name, crawlAST,
    crawlGo, childrenToPush, pushEntry, mkEntity, stripLeadingDot,
    PbNode.fullName, kindOf, pkgNsNode, stGood1, Bind.bind, Except.bind, pure,
    Except.pure]

/-- Witness for C7: one good file followed by one unparseable file — the
run succeeds with exactly the state of processing the good file alone, and
the bad file is logged. -/
theorem c7_parse_error_isolated_witness :
    loadPbCore [fileGood1, fileBadParse] = .ok stGood1 ∧
      "bad.proto" ∈ parseErrorLog [fileGood1, fileBadParse] := by
  have h := c7_parse_error_isolated [fileGood1] [] fileBadParse "parse error"
    stGood1 rfl loadPbCore_good1 (by decide)
  exact ⟨h.1, h.2.1⟩

/-! ### Claim C8 -/

/-- Claim C8: a successfully parsed file that declares no package aborts
the whole run with `MissingPackageError`, whatever files remain — no
remaining file is processed. -/
theorem c8_missing_package_aborts (pre : List FileInput) (bad : FileInput)
    (ast : IParserResult) (s : LoadState)
    (hok : bad.parseResult = .ok ast) (hnopkg : ast.package = none)
    (hpre : loadPbCore pre = .ok s) :
    ∀ post : List FileInput,
      loadPbCore (pre ++ bad :: post) = .error (.missingPackage bad.filename) := by
  intro post
  rw [loadPbCore] at hpre ⊢
  rw [List.foldlM_append, hpre]
  simp only [Bind.bind, Except.bind]
  rw [List.foldlM_cons]
  have hstep : processFile s bad = .error (.missingPackage bad.filename) := by
    simp [processFile, hok, hnopkg]
  rw [hstep]
  simp [Bind.bind, Except.bind]

/-- Witness for C8: a good file, then a package-less file, then another
good file — the run aborts with `MissingPackageError` and the trailing
file is never processed. -/
theorem c8_missing_package_aborts_witness :
    loadPbCore [fileGood1, fileNoPkg, fileGood2] =
      .error (.missingPackage "nopkg.proto") :=
  c8_missing_package_aborts [fileGood1] fileNoPkg
    { package := none, root := .nspace "" "" [] } stGood1 rfl rfl
    loadPbCore_good1 [fileGood2]

/-! ### Service emission lemmas -/

theorem prefixAt_append (needle rest : List Char) :
    prefixAt (needle ++ rest) needle = true := by
  induction needle with
  | nil =>
    cases rest with
    | nil => rfl
    | cons b u => rfl
  | cons a t ih => simp [prefixAt, ih]

theorem listHasSub_append_left (pre hay needle : List Char)
    (h : listHasSub hay needle = true) :
    listHasSub (pre ++ hay) needle = true := by
  induction pre with
  | nil => simpa using h
  | cons a t ih => simp [listHasSub, ih]

theorem listHasSub_self_append (needle rest : List Char) :
    listHasSub (needle ++ rest) needle = true := by
  cases needle with
  | nil =>
    cases rest with
    | nil => rfl
    | cons b u => simp [listHasSub, prefixAt]
  | cons a t =>
    have hp := prefixAt_append (a :: t) rest
    rw [List.cons_append] at hp
    simp [listHasSub, hp]

theorem strData_append (a b : String) : (a ++ b).data = a.data ++ b.data := rfl

/-- The needle occurs whenever the haystack ends with it. -/
theorem strIncludes_suffix (pre needle : String) :
    strIncludes (pre ++ needle) needle = true := by
  rw [strIncludes, strData_append]
  have h := listHasSub_self_append needle.data []
  rw [List.append_nil] at h
  exact listHasSub_append_left pre.data needle.data needle.data h

/-- `attachComment` never loses a substring of the code line. -/
theorem attachComment_keeps (line comment sub : String)
    (h : strIncludes line sub = true) :
    strIncludes (attachComment line comment) sub = true := by
  rw [attachComment]
  by_cases hc : (comment == "") = true
  · rw [if_pos hc]
    exact h
  · rw [if_neg hc]
    rw [strIncludes, strData_append, strData_append]
    rw [List.append_assoc]
    exact listHasSub_append_left _ _ _
      (listHasSub_append_left _ _ _ h)

/-- The suffix `Promise<rt>;` of the method signature line survives in any
string built around it. -/
theorem strIncludes_promise_line (a rt : String) :
    strIncludes (a ++ "): Promise<" ++ rt ++ ">;") ("Promise<" ++ rt ++ ">;") = true := by
  rw [strIncludes]
  have hdata : (a ++ "): Promise<" ++ rt ++ ">;").data =
      (a.data ++ "): ".data) ++ ("Promise<" ++ rt ++ ">;").data := by
    simp [strData_append, List.append_assoc]
  rw [hdata]
  have h := listHasSub_self_append ("Promise<" ++ rt ++ ">;").data []
  rw [List.append_nil] at h
  exact listHasSub_append_left _ _ _ h

theorem printServiceMethod_promise (key : String) (i : FunctionEntity) :
    strIncludes (printServiceMethod key i)
      ("Promise<" ++ i.returnType ++ ">;") = true := by
  simp only [printServiceMethod]
  exact attachComment_keeps _ _ _ (strIncludes_promise_line _ _)

theorem invFrom_lb (k : Nat) (arr : List (Option Param)) (h : invFrom k arr) :
    ∀ b, some b ∈ arr → k ≤ b.index := by
  induction arr generalizing k with
  | nil => intro b hb; simp at hb
  | cons o rest ih =>
    intro b hb
    rcases List.mem_cons.mp hb with rfl | hb'
    · exact le_of_eq (h.1 b rfl).symm
    · exact Nat.le_of_succ_le (ih (k + 1) h.2 b hb')

theorem invFrom_pairwise (k : Nat) (arr : List (Option Param))
    (h : invFrom k arr) :
    (arr.filterMap id).Pairwise (fun a b => a.index < b.index) := by
  induction arr generalizing k with
  | nil => simp
  | cons o rest ih =>
    cases o with
    | none =>
      simp only [List.filterMap_cons]
      exact ih (k + 1) h.2
    | some d =>
      simp only [List.filterMap_cons]
      refine List.Pairwise.cons ?_ (ih (k + 1) h.2)
      intro b hb
      have hsome : some b ∈ rest := by
        obtain ⟨a, ha, hab⟩ := List.mem_filterMap.mp hb
        have haeq : a = some b := hab
        rwa [haeq] at ha
      have := invFrom_lb (k + 1) rest h.2 b hsome
      have hd := h.1 d rfl
      omega

theorem invFrom_append (k : Nat) (a b : List (Option Param))
    (ha : invFrom k a) (hb : invFrom (k + a.length) b) :
    invFrom k (a ++ b) := by
  induction a generalizing k with
  | nil => simpa using hb
  | cons o rest ih =>
    refine ⟨ha.1, ?_⟩
    refine ih (k + 1) ha.2 ?_
    have : k + 1 + rest.length = k + (o :: rest).length := by
      simp [List.length_cons]
      omega
    rw [this]
    exact hb

theorem invFrom_replicate (k n : Nat) :
    invFrom k (List.replicate n (none : Option Param)) := by
  induction n generalizing k with
  | zero => trivial
  | succ n ih =>
    rw [List.replicate_succ]
    exact ⟨(fun d hd => nomatch hd), ih (k + 1)⟩

theorem invFrom_set (k i : Nat) (arr : List (Option Param)) (d : Param)
    (h : invFrom k arr) (hd : d.index = k + i) :
    invFrom k (arr.set i (some d)) := by
  induction arr generalizing k i with
  | nil => trivial
  | cons o rest ih =>
    cases i with
    | zero =>
      refine ⟨fun d' hd' => ?_, h.2⟩
      cases hd'
      omega
    | succ i =>
      refine ⟨h.1, ih (k + 1) i h.2 (by omega)⟩

theorem invFrom_writeAt (arr : List (Option Param)) (d : Param)
    (h : invFrom 0 arr) :
    invFrom 0 (writeAt arr d.index d) := by
  rw [writeAt]
  by_cases hlen : d.index < arr.length
  · rw [if_pos hlen]
    exact invFrom_set 0 d.index arr d h (by omega)
  · rw [if_neg hlen]
    refine invFrom_append 0 _ _ (invFrom_append 0 _ _ h ?_) ?_
    · exact invFrom_replicate _ _
    · refine ⟨fun d' hd' => ?_, trivial⟩
      cases hd'
      simp [List.length_append, List.length_replicate]
      omega

theorem mem_writeAt (arr : List (Option Param)) (i : Nat) (d : Param)
    (x : Param) (hx : some x ∈ writeAt arr i d) : some x ∈ arr ∨ x = d := by
  rw [writeAt] at hx
  by_cases hlen : i < arr.length
  · rw [if_pos hlen] at hx
    rcases List.mem_or_eq_of_mem_set hx with hin | heq
    · exact Or.inl hin
    · exact Or.inr (by injection heq)
  · rw [if_neg hlen] at hx
    rcases List.mem_append.mp hx with hx1 | hx2
    · rcases List.mem_append.mp hx1 with hx3 | hx4
      · exact Or.inl hx3
      · exact absurd (List.eq_of_mem_replicate hx4) (by simp)
    · simp at hx2
      exact Or.inr hx2

theorem sortTmp_fold_inv (params : List Param) (arr : List (Option Param))
    (h : invFrom 0 arr) :
    invFrom 0 (params.foldl (fun arr d => writeAt arr d.index d) arr) := by
  induction params generalizing arr with
  | nil => exact h
  | cons d rest ih =>
    simp only [List.foldl_cons]
    exact ih _ (invFrom_writeAt arr d h)

theorem sortTmp_fold_mem (params : List Param) (arr : List (Option Param))
    (x : Param)
    (hx : some x ∈ params.foldl (fun arr d => writeAt arr d.index d) arr) :
    some x ∈ arr ∨ x ∈ params := by
  induction params generalizing arr with
  | nil => exact Or.inl hx
  | cons d rest ih =>
    simp only [List.foldl_cons] at hx
    rcases ih _ hx with hin | hmem
    · rcases mem_writeAt arr d.index d x hin with hin' | rfl
      · exact Or.inl hin'
      · exact Or.inr (List.mem_cons_self _ _)
    · exact Or.inr (List.mem_cons_of_mem _ hmem)

theorem sortTmpOf_sorted (params : List Param) :
    (sortTmpOf params).Pairwise (fun a b => a.index < b.index) := by
  rw [sortTmpOf]
  exact invFrom_pairwise 0 _ (sortTmp_fold_inv params [] trivial)

theorem sortTmpOf_mem (params : List Param) (x : Param)
    (hx : x ∈ sortTmpOf params) : x ∈ params := by
  rw [sortTmpOf] at hx
  obtain ⟨a, ha, hab⟩ := List.mem_filterMap.mp hx
  have hsome : some x ∈ params.foldl (fun arr d => writeAt arr d.index d) [] := by
    have haeq : a = some x := hab
    rwa [haeq] at ha
  rcases sortTmp_fold_mem params [] x hsome with hin | hmem
  · simp at hin
  · exact hmem

/-! ### Claim C9 -/

/-- Claim C9: a method with a declared request type yields a
`FunctionEntity` with exactly one input parameter, assigned index 1 (and an
empty parameter list otherwise); the emitted signature wraps the return
type in `Promise<...>`; and the rendered input parameters are in ascending
assigned index order with sparse/undeclared slots filtered out (every
rendered parameter is one of the declared ones). -/
theorem c9_service_method_shape (m : Method) (key : String) (i : FunctionEntity) :
    ((convertMethodToFunctionEntity m).inputParams =
      match m.requestType with
      | some rt => [{ type := rt, index := 1, name := "req" }]
      | none => [])
    ∧ strIncludes (printServiceMethod key i) ("Promise<" ++ i.returnType ++ ">;") = true
    ∧ (sortTmpOf i.inputParams).Pairwise (fun a b => a.index < b.index)
    ∧ ∀ p ∈ sortTmpOf i.inputParams, p ∈ i.inputParams :=
  ⟨rfl, printServiceMethod_promise key i, sortTmpOf_sorted _,
    fun p hp => sortTmpOf_mem _ p hp⟩

/-- Witness for C9 on a concrete method: exactly one `req` parameter with
index 1, and the rendered line contains `Promise<Resp>;`. -/
theorem c9_service_method_shape_witness :
    (convertMethodToFunctionEntity mW).inputParams =
        [{ type := "Req", index := 1, name := "req" }]
    ∧ strIncludes (printServiceMethod "getThing" feW) "Promise<Resp>;" = true := by
  have h := c9_service_method_shape mW "getThing" feW
  exact ⟨h.1, h.2.1⟩

/-! ### The well-formedness hypotheses hold for crawlAST output -/

theorem crawlGo_entities (stack : List PbNode) (nm : NodeMap) (f : String) :
    ∀ p ∈ crawlGo stack nm f, ∀ x ∈ p.2,
      (∃ q ∈ nm, x ∈ q.2) ∨ ∃ n ∈ visitL stack, x = mkEntity n f := by
  induction stack, nm, f using crawlGo.induct with
  | case1 nm f =>
    intro p hp x hx
    exact Or.inl ⟨p, by simpa [crawlGo] using hp, hx⟩
  | case2 nm f current rest ih =>
    intro p hp x hx
    rw [crawlGo] at hp
    rcases ih p hp x hx with ⟨q, hq, hxq⟩ | ⟨n, hn, hxe⟩
    · rcases pushEntry_mem nm _ _ q hq x hxq with ⟨r, hr, hxr⟩ | hxe
      · exact Or.inl ⟨r, hr, hxr⟩
      · exact Or.inr ⟨current, by rw [visitL]; exact List.mem_cons_self _ _, hxe⟩
    · refine Or.inr ⟨n, ?_, hxe⟩
      rw [visitL]
      exact List.mem_cons_of_mem _ hn

/-- The well-formedness used by the resolver theorems is preserved by
`crawlAST` whenever the crawled parser AST itself is well-formed (enum and
message nodes have dot-free simple names and dotted stripped
fully-qualified names, as the external parser guarantees for nodes below a
package namespace). -/
theorem crawlAST_preserves_wf (root : PbNode) (nm : NodeMap) (f : String)
    (hwf : wfNodeMap nm)
    (hast : ∀ n ∈ visitL [root],
      (kindOf n = PbKind.enum ∨ kindOf n = PbKind.message) →
        hasChar n.name '.' = false ∧
          hasChar (stripLeadingDot n.fullName) '.' = true) :
    wfNodeMap (crawlAST root nm f) := by
  intro p hp e he hkind
  rcases crawlGo_entities [root] nm f p hp e he with ⟨q, hq, heq⟩ | ⟨n, hn, rfl⟩
  · exact hwf q hq e heq hkind
  · have hk : kindOf n = PbKind.enum ∨ kindOf n = PbKind.message := by
      simpa [mkEntity] using hkind
    have hc := hast n hn hk
    simpa [mkEntity] using hc
